import Mathlib

/-
Verification of the Galois runtime core against its specification.

The development shallowly embeds the C++ sources:
  src/src/FileGraph.cpp                    (on-disk graph format loader)
  src/include/Galois/Graphs/LCGraph.h      (four in-memory graph layouts)
  src/include/Galois/Runtime/InsBag.h      (concurrent insert bag)
  src/include/Galois/Runtime/Termination.h (termination detection tokens)
  src/include/Galois/util/GAlgs.h          (safe_advance)
  src/include/Galois/Runtime/ll/StaticInstance.h

Machine integers are modelled as Nat with explicit bounds where overflow
matters; raw memory is modelled as List Nat of bytes (reads normalise with
mod 256, mirroring byte-granular loads); pointers into arrays are modelled
as indices; fallible operations return explicit result types.
-/

/-! ## Byte-level memory model

The FileGraph loader reads little-endian integers straight out of a mapped
byte buffer (le64toh / le32toh on a little-endian host are the identity, so
the value read is the little-endian decoding of the underlying bytes). -/

/-- One byte of a mapped buffer; an index past the end reads as 0 and every
read is normalised to an 8-bit value, mirroring byte-granular loads. -/
def readByte (m : List Nat) (i : Nat) : Nat :=
  m.getD i 0 % 256

/-- Little-endian decoding of k consecutive bytes starting at off. -/
def readLEBytes (m : List Nat) (off : Nat) : Nat → Nat
  | 0 => 0
  | k + 1 => readByte m off + 256 * readLEBytes m (off + 1) k

/-- A 64-bit little-endian load, as done by le64toh(*fptr). -/
def readLE64 (m : List Nat) (off : Nat) : Nat :=
  readLEBytes m off 8

/-- A 32-bit little-endian load, as done by le32toh(*fptr32). -/
def readLE32 (m : List Nat) (off : Nat) : Nat :=
  readLEBytes m off 4

/-- Little-endian encoding of a value into k bytes (used to build concrete
test images). -/
def leBytes : Nat → Nat → List Nat
  | 0, _ => []
  | k + 1, v => v % 256 :: leBytes k (v / 256)

/-- Eight-byte little-endian encoding. -/
def le64 (v : Nat) : List Nat :=
  leBytes 8 v

/-- Four-byte little-endian encoding. -/
def le32 (v : Nat) : List Nat :=
  leBytes 4 v

theorem readByte_lt (m : List Nat) (i : Nat) : readByte m i < 256 :=
  Nat.mod_lt _ (by decide)

theorem readLEBytes_lt (m : List Nat) (off : Nat) :
    ∀ k, readLEBytes m off k < 256 ^ k := by
  intro k
  induction k generalizing off with
  | zero => simp [readLEBytes]
  | succ k ih =>
    have hb := readByte_lt m off
    have hr := ih (off + 1)
    have h256 : 256 * readLEBytes m (off + 1) k ≤ 256 * (256 ^ k - 1) :=
      Nat.mul_le_mul_left 256 (Nat.le_sub_one_of_lt hr)
    have hpos : 1 ≤ 256 ^ k := Nat.one_le_pow _ _ (by decide)
    simp only [readLEBytes, pow_succ]
    omega

theorem readLE64_lt (m : List Nat) (off : Nat) :
    readLE64 m off < 2 ^ 64 := by
  have e : (256 : Nat) ^ 8 = 2 ^ 64 := by norm_num
  exact e ▸ readLEBytes_lt m off 8

/-! ## FileGraph (src/src/FileGraph.cpp)

File format V1 (from the comment at the top of FileGraph.cpp):
  version {u64 LE} , EdgeType size {u64 LE}, numNodes {u64 LE},
  numEdges {u64 LE}, outindexs[numNodes] {u64 LE}, outedges[numEdges]
  {u32 LE}, potential 32-bit padding realigning to 64 bits, then
  EdgeType[numEdges].

The C++ object keeps the raw mapping (masterMapping / masterLength) plus
pointers into it (outIdx, outs, edgeData); the model keeps the byte image
plus the corresponding byte offsets. -/

structure FileGraph where
  image : List Nat
  masterLength : Nat
  sizeEdgeTy : Nat
  numNodes : Nat
  numEdges : Nat
  outIdxOff : Nat
  outsOff : Nat
  edgeDataOff : Nat
deriving DecidableEq

/-- FileGraph::parse. Reads the four header words and sets the three table
pointers; numEdges odd adds one u32 of padding before the edge data. The
only check in the source is a debug-build assert(version == 1); nothing is
validated. masterLength is recorded by the caller (structureFromMem) as the
length of the buffer. -/
def FileGraph.parse (m : List Nat) : FileGraph :=
  let sizeEdgeTy := readLE64 m 8
  let numNodes := readLE64 m 16
  let numEdges := readLE64 m 24
  let outIdxOff := 32
  let outsOff := outIdxOff + 8 * numNodes
  let edgeDataOff := outsOff + 4 * numEdges + (if numEdges % 2 = 1 then 4 else 0)
  { image := m
    masterLength := m.length
    sizeEdgeTy := sizeEdgeTy
    numNodes := numNodes
    numEdges := numEdges
    outIdxOff := outIdxOff
    outsOff := outsOff
    edgeDataOff := edgeDataOff }

/-- The condition of the debug assert(version == 1) in FileGraph::parse.
It is compiled out in release builds and aborts the process (it does not
produce a recoverable error) when assertions are enabled. -/
def FileGraph.parseAssertHolds (m : List Nat) : Prop :=
  readLE64 m 0 = 1

instance (m : List Nat) : Decidable (FileGraph.parseAssertHolds m) := by
  unfold FileGraph.parseAssertHolds
  infer_instance

/-- FileGraph::structureFromMem: with clone it memcpy-s the buffer into a
fresh anonymous mapping and parses the copy, otherwise it parses the given
buffer in place; either way the parsed bytes are exactly the input bytes. -/
def FileGraph.structureFromMem (m : List Nat) (_clone : Bool) : FileGraph :=
  FileGraph.parse m

/-- FileGraph::structureToFile: writes masterLength bytes starting at
masterMapping verbatim (the whole retained image). -/
def FileGraph.structureToFile (g : FileGraph) : List Nat :=
  g.image.take g.masterLength

/-- Modelled from the spec: the spec's load contract is
load(bytes) -> FileGraph | FormatError; the FormatError alternative does
not exist anywhere in the sources, so the result type is taken from the
spec's words and the loader below is the code's actual behaviour. -/
inductive LoadOutcome where
  | ok (g : FileGraph)
  | formatError
deriving DecidableEq

/-- The load operation (structureFromMem via parse) expressed in the spec's
result type: the code path unconditionally parses and returns a FileGraph,
it has no failure return. -/
def FileGraph.structureFromMemResult (m : List Nat) : LoadOutcome :=
  LoadOutcome.ok (FileGraph.structureFromMem m true)

/-- outIdx[i], a 64-bit little-endian load from the offset table. -/
def FileGraph.outIdx (g : FileGraph) (i : Nat) : Nat :=
  readLE64 g.image (g.outIdxOff + 8 * i)

/-- le32toh(outs[j]), a 32-bit little-endian load from the destination
table. -/
def FileGraph.outsAt (g : FileGraph) (j : Nat) : Nat :=
  readLE32 g.image (g.outsOff + 4 * j)

/-- FileGraph::raw_neighbor_begin: &outs[0] for node 0, &outs[outIdx[N-1]]
otherwise (index into the destination table). -/
def FileGraph.raw_neighbor_begin (g : FileGraph) (N : Nat) : Nat :=
  if N = 0 then 0 else g.outIdx (N - 1)

/-- FileGraph::raw_neighbor_end: &outs[outIdx[N]]. -/
def FileGraph.raw_neighbor_end (g : FileGraph) (N : Nat) : Nat :=
  g.outIdx N

/-- FileGraph::edge_begin: edge_iterator(N == 0 ? 0 : outIdx[N-1]). -/
def FileGraph.edge_begin (g : FileGraph) (N : Nat) : Nat :=
  if N = 0 then 0 else g.outIdx (N - 1)

/-- FileGraph::edge_end: edge_iterator(outIdx[N]). -/
def FileGraph.edge_end (g : FileGraph) (N : Nat) : Nat :=
  g.outIdx N

/-- FileGraph::getEdgeDst: le32toh(outs[*it]). -/
def FileGraph.getEdgeDst (g : FileGraph) (it : Nat) : Nat :=
  g.outsAt it

/-- FileGraph::neighborsSize: std::distance(raw_neighbor_begin,
raw_neighbor_end). -/
def FileGraph.neighborsSize (g : FileGraph) (N : Nat) : Nat :=
  g.raw_neighbor_end N - g.raw_neighbor_begin N

/-- FileGraph::getEdgeIdx: scan the pointers from raw_neighbor_begin(src)
to raw_neighbor_end(src); on the first slot holding dst return its distance
from outs, otherwise return ~uint64_t(0) = 2^64 - 1. -/
def FileGraph.getEdgeIdx (g : FileGraph) (src dst : Nat) : Nat :=
  match (List.range' (g.raw_neighbor_begin src)
      (g.raw_neighbor_end src - g.raw_neighbor_begin src)).find?
      (fun i => g.outsAt i == dst) with
  | some i => i
  | none => 2 ^ 64 - 1

/-- FileGraph::hasNeighbor: getEdgeIdx(N1,N2) != ~uint64_t(0). -/
def FileGraph.hasNeighbor (g : FileGraph) (src dst : Nat) : Prop :=
  g.getEdgeIdx src dst ≠ 2 ^ 64 - 1

instance (g : FileGraph) (src dst : Nat) : Decidable (g.hasNeighbor src dst) := by
  unfold FileGraph.hasNeighbor
  infer_instance

/-- FileGraph::size: numNodes. -/
def FileGraph.size (g : FileGraph) : Nat :=
  g.numNodes

/-- FileGraph::sizeEdges: numEdges. -/
def FileGraph.sizeEdges (g : FileGraph) : Nat :=
  g.numEdges

/-- The observable destination sequence of node N: iterate the edge range
edge_begin(N) .. edge_end(N) and map each edge through getEdgeDst. -/
def FileGraph.destsOf (g : FileGraph) (N : Nat) : List Nat :=
  (List.range' (g.raw_neighbor_begin N) (g.neighborsSize N)).map (g.outsAt)

/-- The edge payload table: sizeEdgeTy bytes per edge, numEdges edges,
starting at the post-padding offset computed by parse. -/
def FileGraph.edgePayloadBytes (g : FileGraph) : List Nat :=
  ((g.image.drop g.edgeDataOff).take (g.sizeEdgeTy * g.numEdges)).map (· % 256)

/-- A malformed image: version = 2, numNodes = 2, numEdges = 5, an offset
table [3, 1] that is not monotonically non-decreasing, and no destination
table at all (the node and edge counts do not match the table sizes: the
image ends right after the offset table). -/
def badImage : List Nat :=
  le64 2 ++ le64 0 ++ le64 2 ++ le64 5 ++ le64 3 ++ le64 1

/-- C1 counterexample: on badImage (unsupported version 2, non-monotone
offset table, counts not matching table sizes) the load operation does not
fail with FormatError: it returns a parsed FileGraph. -/
theorem c1_load_accepts_malformed :
    FileGraph.structureFromMemResult badImage ≠ LoadOutcome.formatError ∧
    readLE64 badImage 0 = 2 ∧
    ¬ FileGraph.parseAssertHolds badImage ∧
    (FileGraph.structureFromMem badImage true).outIdx 0 = 3 ∧
    (FileGraph.structureFromMem badImage true).outIdx 1 = 1 ∧
    (FileGraph.structureFromMem badImage true).numNodes = 2 ∧
    (FileGraph.structureFromMem badImage true).numEdges = 5 ∧
    badImage.length = 48 := by
  refine ⟨by decide, by decide, by decide, by decide, by decide, by decide, by decide, by decide⟩

/-- C1 amended: the loader performs no validation and has no FormatError
outcome; for every byte buffer structureFromMem returns the parsed
FileGraph, and the only guard in the source is a debug-build assert whose
condition is exactly that the version field reads as 1. -/
theorem c1_load_always_ok (m : List Nat) :
    FileGraph.structureFromMemResult m = LoadOutcome.ok (FileGraph.parse m) ∧
    FileGraph.structureFromMemResult m ≠ LoadOutcome.formatError ∧
    (FileGraph.parseAssertHolds m ↔ readLE64 m 0 = 1) :=
  ⟨rfl, by simp [FileGraph.structureFromMemResult], Iff.rfl⟩

/-- C5: writing a loaded graph with structureToFile emits the retained
image verbatim, so loading the written bytes yields a graph with the same
node count, edge count, adjacency and edge payload bytes. -/
theorem c5_write_load_roundtrip (m : List Nat) :
    (FileGraph.structureFromMem (FileGraph.structureToFile
        (FileGraph.structureFromMem m false)) false).size =
      (FileGraph.structureFromMem m false).size ∧
    (FileGraph.structureFromMem (FileGraph.structureToFile
        (FileGraph.structureFromMem m false)) false).sizeEdges =
      (FileGraph.structureFromMem m false).sizeEdges ∧
    (∀ N, (FileGraph.structureFromMem (FileGraph.structureToFile
        (FileGraph.structureFromMem m false)) false).destsOf N =
      (FileGraph.structureFromMem m false).destsOf N) ∧
    (FileGraph.structureFromMem (FileGraph.structureToFile
        (FileGraph.structureFromMem m false)) false).edgePayloadBytes =
      (FileGraph.structureFromMem m false).edgePayloadBytes := by
  have h : FileGraph.structureToFile (FileGraph.structureFromMem m false) = m := by
    simp [FileGraph.structureToFile, FileGraph.structureFromMem, FileGraph.parse]
  rw [h]
  exact ⟨rfl, rfl, fun _ => rfl, rfl⟩

/-- The spec's example scenario: 4 nodes, edges (0,1), (0,2), (1,2), (2,3),
serialized in format V1 with no edge payload. Offsets are [2,3,4,4] and the
destination table is [1,2,2,3]. -/
def exampleImage : List Nat :=
  le64 1 ++ le64 0 ++ le64 4 ++ le64 4 ++
  le64 2 ++ le64 3 ++ le64 4 ++ le64 4 ++
  le32 1 ++ le32 2 ++ le32 2 ++ le32 3

/-- The example graph loaded from its serialized image. -/
def exampleGraph : FileGraph :=
  FileGraph.structureFromMem exampleImage false

/-- C6: edge ranges are [outIdx[N-1], outIdx[N]) with implicit
outIdx[-1] = 0, and hasNeighbor(src,dst) holds exactly when some index of
src's range has destination dst; on the example graph: size 4, 4 edges,
node 0's destinations are [1,2] in stored order, hasNeighbor(2,3) and not
hasNeighbor(3,0). -/
theorem c6_edge_ranges (g : FileGraph) (N dst : Nat)
    (hmono : g.raw_neighbor_begin N ≤ g.raw_neighbor_end N) :
    g.edge_begin N = (if N = 0 then 0 else g.outIdx (N - 1)) ∧
    g.edge_end N = g.outIdx N ∧
    (g.hasNeighbor N dst ↔
      ∃ i, g.raw_neighbor_begin N ≤ i ∧ i < g.raw_neighbor_end N ∧
        g.getEdgeDst i = dst) ∧
    exampleGraph.size = 4 ∧
    exampleGraph.sizeEdges = 4 ∧
    exampleGraph.destsOf 0 = [1, 2] ∧
    exampleGraph.hasNeighbor 2 3 ∧
    ¬ exampleGraph.hasNeighbor 3 0 := by
  refine ⟨rfl, rfl, ?_, by decide, by decide, by decide, by decide, by decide⟩
  unfold FileGraph.hasNeighbor FileGraph.getEdgeIdx
  have hend : g.raw_neighbor_end N < 2 ^ 64 := readLE64_lt _ _
  constructor
  · intro hne
    cases hfind : (List.range' (g.raw_neighbor_begin N)
        (g.raw_neighbor_end N - g.raw_neighbor_begin N)).find?
        (fun i => g.outsAt i == dst) with
    | none =>
      rw [hfind] at hne
      exact absurd rfl hne
    | some i =>
      have hmem := List.mem_of_find?_eq_some hfind
      have hp := List.find?_some hfind
      rw [List.mem_range'_1] at hmem
      refine ⟨i, hmem.1, by omega, ?_⟩
      simpa [FileGraph.getEdgeDst, FileGraph.outsAt] using hp
  · rintro ⟨i, hbi, hie, hdst⟩
    cases hfind : (List.range' (g.raw_neighbor_begin N)
        (g.raw_neighbor_end N - g.raw_neighbor_begin N)).find?
        (fun i => g.outsAt i == dst) with
    | none =>
      have hmem : i ∈ List.range' (g.raw_neighbor_begin N)
          (g.raw_neighbor_end N - g.raw_neighbor_begin N) := by
        rw [List.mem_range'_1]
        omega
      have hni := List.find?_eq_none.mp hfind i hmem
      simp only [FileGraph.getEdgeDst] at hdst
      simp [hdst] at hni
    | some j =>
      have hmem := List.mem_of_find?_eq_some hfind
      rw [List.mem_range'_1] at hmem
      show j ≠ 2 ^ 64 - 1
      omega

/-- C6 witness: the hypothesis and the neighbor characterisation of
c6_edge_ranges at the example graph, node 2, destination 3. -/
theorem c6_edge_ranges_witness :
    exampleGraph.raw_neighbor_begin 2 ≤ exampleGraph.raw_neighbor_end 2 ∧
    (exampleGraph.hasNeighbor 2 3 ↔
      ∃ i, exampleGraph.raw_neighbor_begin 2 ≤ i ∧
        i < exampleGraph.raw_neighbor_end 2 ∧ exampleGraph.getEdgeDst i = 3) :=
  ⟨by decide, (c6_edge_ranges exampleGraph 2 3 (by decide)).2.2.1⟩

/-! ## Termination detection (src/include/Galois/Runtime/Termination.h)

TerminationDetection keeps a PerThreadStorage<TokenHolder>; PerThreadStorage
is not part of this snapshot and is modelled from the spec as one
default-constructed TokenHolder per worker, indexed by worker id. -/

structure TokenHolder where
  tokenIsBlack : Bool
  hasToken : Bool
  processIsBlack : Bool
deriving DecidableEq

/-- TokenHolder::TokenHolder(): tokenIsBlack(false), hasToken(false),
processIsBlack(true). -/
def TokenHolder.init : TokenHolder :=
  { tokenIsBlack := false, hasToken := false, processIsBlack := true }

/-- TerminationDetection::initializeThread as run by worker tid: when
LL::getTID() == 0 it sets hasToken and tokenIsBlack on its own (worker 0's)
holder; every other worker leaves the storage untouched. -/
def initializeThread (data : Nat → TokenHolder) (tid : Nat) : Nat → TokenHolder :=
  if tid = 0 then
    fun j => if j = 0 then
      { data 0 with hasToken := true, tokenIsBlack := true }
    else data j
  else
    data

/-- The per-worker holders after construction (default TokenHolder per
worker) followed by initializeThread on every one of the W workers. -/
def initAllWorkers (W : Nat) : Nat → TokenHolder :=
  (List.range W).foldl initializeThread (fun _ => TokenHolder.init)

theorem foldl_initializeThread_stable (l : List Nat) (d : Nat → TokenHolder)
    (hl : ∀ x ∈ l, x ≠ 0) : l.foldl initializeThread d = d := by
  induction l generalizing d with
  | nil => rfl
  | cons a t ih =>
    rw [List.foldl_cons, initializeThread, if_neg (hl a (by simp))]
    exact ih d (fun x hx => hl x (by simp [hx]))

/-- C7: after construction and initializeThread on every worker, worker 0
and only worker 0 holds the token, the held token is black, and every
worker's processIsBlack flag is true. -/
theorem c7_initial_token_state (W i : Nat) (h : i < W) :
    (initAllWorkers W i).hasToken = decide (i = 0) ∧
    (initAllWorkers W i).tokenIsBlack = decide (i = 0) ∧
    (initAllWorkers W i).processIsBlack = true := by
  obtain ⟨k, rfl⟩ : ∃ k, W = k + 1 := ⟨W - 1, by omega⟩
  have hr : List.range (k + 1) = 0 :: List.range' 1 k := by
    rw [List.range_eq_range', List.range'_succ]
  rw [initAllWorkers, hr, List.foldl_cons,
    foldl_initializeThread_stable _ _
      (fun x hx => by rw [List.mem_range'_1] at hx; omega)]
  by_cases hi : i = 0 <;> simp [initializeThread, hi, TokenHolder.init]

/-- C7 witness: two workers; worker 0 holds a black token, worker 1 does
not, both start dirty. -/
theorem c7_initial_token_state_witness :
    ((initAllWorkers 2 0).hasToken = decide ((0 : Nat) = 0) ∧
      (initAllWorkers 2 0).tokenIsBlack = decide ((0 : Nat) = 0) ∧
      (initAllWorkers 2 0).processIsBlack = true) ∧
    ((initAllWorkers 2 1).hasToken = decide ((1 : Nat) = 0) ∧
      (initAllWorkers 2 1).tokenIsBlack = decide ((1 : Nat) = 0) ∧
      (initAllWorkers 2 1).processIsBlack = true) :=
  ⟨c7_initial_token_state 2 0 (by decide), c7_initial_token_state 2 1 (by decide)⟩

/-! ## safe_advance (src/include/Galois/util/GAlgs.h)

Iterator positions over a random-access sequence are modelled as indices;
for b at or before e, std::distance(b, e) = e - b. -/

/-- The random-access overload of safe_advance_dispatch, exactly as in the
source: if (std::distance(b,e) < n) return b + n; else return e. -/
def safe_advance_dispatch_ra (b e n : Nat) : Nat :=
  if e - b < n then b + n else e

/-- The input-iterator overload of safe_advance_dispatch:
while (b != e && n--) ++b; return b. -/
def safe_advance_dispatch_input (b e : Nat) : Nat → Nat
  | 0 => b
  | n + 1 => if b = e then b else safe_advance_dispatch_input (b + 1) e n

/-- safe_advance over a random-access range dispatches on the iterator
category to the random-access overload. -/
def safe_advance (b e n : Nat) : Nat :=
  safe_advance_dispatch_ra b e n

/-- C8: the random-access safe_advance has its guard inverted. On the
range [0, 2): with n = 5 it returns 5, past the end (the comment above it
promises end); with n = 1 it returns the end 2 instead of position 1. The
input-iterator overload of the same function behaves as documented, which
pins the random-access overload as the slip. -/
theorem c8_safe_advance_inverted :
    safe_advance 0 2 5 = 5 ∧
    ¬ (safe_advance 0 2 5 ≤ 2) ∧
    safe_advance 0 2 1 = 2 ∧
    safe_advance_dispatch_input 0 2 5 = 2 ∧
    safe_advance_dispatch_input 0 2 1 = 1 := by
  decide

/-! ## StaticInstance (src/include/Galois/Runtime/ll/StaticInstance.h)

The claim is about sequential calls, so get is modelled as a state
transition; the stored pointer V is an Option Nat (none = null, the object
is zero-initialized), and new T() is modelled as handing out the next
positive address, so an allocated pointer is never the null 0. -/

structure StaticInstanceState where
  V : Option Nat
  allocs : Nat
deriving DecidableEq

/-- The zero-initialized static wrapper: V is the null pointer, nothing
allocated yet. -/
def StaticInstanceState.init : StaticInstanceState :=
  { V := none, allocs := 0 }

/-- StaticInstance::get under sequential execution: read V and return it if
non-null; otherwise lock, re-read V (double-checked locking: unchanged in a
sequential run), allocate and store when still null, unlock, return. -/
def StaticInstance.get (s : StaticInstanceState) : Nat × StaticInstanceState :=
  match s.V with
  | some p => (p, s)
  | none =>
    match s.V with
    | some p => (p, s)
    | none => (s.allocs + 1, { V := some (s.allocs + 1), allocs := s.allocs + 1 })

/-- Run n sequential calls to get, collecting the returned pointers. -/
def StaticInstance.getN : Nat → StaticInstanceState → List Nat × StaticInstanceState
  | 0, s => ([], s)
  | n + 1, s =>
    let r := StaticInstance.get s
    let rs := StaticInstance.getN n r.2
    (r.1 :: rs.1, rs.2)

theorem getN_of_some (p a : Nat) :
    ∀ n, StaticInstance.getN n { V := some p, allocs := a } =
      (List.replicate n p, { V := some p, allocs := a }) := by
  intro n
  induction n with
  | zero => rfl
  | succ n ih => simp [StaticInstance.getN, StaticInstance.get, ih, List.replicate_succ]

/-- C10: from the zero-initialized state, any positive number of sequential
get calls allocates exactly once; every call returns the pointer created by
the first call, that pointer is not null, and the state after the first
call never changes again (get is idempotent). -/
theorem c10_static_instance_get (n : Nat) :
    (StaticInstance.getN (n + 1) StaticInstanceState.init).1 =
      List.replicate (n + 1) 1 ∧
    (StaticInstance.getN (n + 1) StaticInstanceState.init).2 =
      { V := some 1, allocs := 1 } ∧
    (0 : Nat) ∉ (StaticInstance.getN (n + 1) StaticInstanceState.init).1 ∧
    StaticInstance.get { V := some 1, allocs := 1 } =
      (1, { V := some 1, allocs := 1 }) := by
  have h1 : StaticInstance.get StaticInstanceState.init =
      (1, { V := some 1, allocs := 1 }) := rfl
  refine ⟨?_, ?_, ?_, rfl⟩
  · simp [StaticInstance.getN, h1, getN_of_some, List.replicate_succ]
  · simp [StaticInstance.getN, h1, getN_of_some]
  · simp [StaticInstance.getN, h1, getN_of_some, List.mem_replicate]

/-! ## Insert bag (src/include/Galois/Runtime/InsBag.h)

galois_insert_bag keeps a PerCPU<header*> of per-worker segment lists;
PerCPU and MM (mm/Mem.h) are not part of this snapshot and are modelled
from the spec: one slot per worker and page-sized arenas. A bag state is a
list (one entry per worker) of segment lists, newest segment first, each
segment listing its elements in construction order (dbegin up to dend).
cap is the number of element slots a segment offers (dlast - dbegin); a
segment s is full exactly when s.length = cap, which is the source's
H->dend == H->dlast test. -/

/-- The effect of galois_insert_bag::push on one worker's segment list:
if the head segment is absent or full, allocate a fresh segment via
newHeader, link it at the head (insHeader), then construct the value at
dend and advance dend; otherwise construct at the existing head's dend. -/
def pushWorker {α : Type} (cap : Nat) (segs : List (List α)) (v : α) : List (List α) :=
  match segs with
  | [] => [[v]]
  | s :: ss => if s.length = cap then [v] :: s :: ss else (s ++ [v]) :: ss

/-- galois_insert_bag::push as run by worker w: update that worker's
segment list (heads.get() is the calling worker's slot). -/
def bagPush {α : Type} (cap : Nat) (B : List (List (List α))) (w : Nat) (v : α) :
    List (List (List α)) :=
  B.set w (pushWorker cap (B.getD w []) v)

/-- A freshly constructed bag: every worker's head pointer is null. -/
def bagEmpty (α : Type) (W : Nat) : List (List (List α)) :=
  List.replicate W []

/-- A finite sequence of pushes (worker index, value), applied in order. -/
def applyPushes {α : Type} (cap : Nat) (ps : List (Nat × α)) (B : List (List (List α))) :
    List (List (List α)) :=
  ps.foldl (fun b q => bagPush cap b q.1 q.2) B

/-- Total number of elements stored in the bag. -/
def bagElems {α : Type} (B : List (List (List α))) : Nat :=
  (B.map (fun w => (w.map List.length).sum)).sum

/-- galois_insert_bag::iterator: thr is the worker index, p the current
header pointer modelled as the remaining suffix of that worker's segment
list (p = [] is the null pointer), v the element cursor inside the current
segment (dbegin is index 0, dend is index length). -/
structure InsBagIter (α : Type) where
  thr : Nat
  p : List (List α)
  v : Nat
deriving DecidableEq

/-- iterator::advance_thread: while (thr < hd->size()) { ++thr; if
(init_thread()) return; }; on exit p is null and v is 0 (matching the
last failed init_thread, and the states this is reached from). -/
def iterAdvanceThread {α : Type} (heads : List (List (List α))) (thr : Nat) :
    InsBagIter α :=
  if thr < heads.length then
    let p := if thr + 1 < heads.length then heads.getD (thr + 1) [] else []
    if p.isEmpty then iterAdvanceThread heads (thr + 1)
    else ⟨thr + 1, p, 0⟩
  else
    ⟨thr, [], 0⟩
termination_by heads.length - thr

/-- iterator::iterator(hd, thr): init_thread() and, if the worker has no
segments, advance_thread(). begin() is iterCtor heads 0 and end() is
iterCtor heads heads.length. -/
def iterCtor {α : Type} (heads : List (List (List α))) (thr : Nat) : InsBagIter α :=
  let p := if thr < heads.length then heads.getD thr [] else []
  if p.isEmpty then iterAdvanceThread heads thr else ⟨thr, p, 0⟩

/-- iterator::advance: advance_local (increment v, stop unless it reached
dend), else advance_chunk (follow p->next, rewind v to dbegin), else
advance_thread. -/
def iterAdvance {α : Type} (heads : List (List (List α))) (s : InsBagIter α) :
    InsBagIter α :=
  match s.p with
  | [] => iterAdvanceThread heads s.thr
  | seg :: rest =>
    if s.v + 1 ≠ seg.length then ⟨s.thr, seg :: rest, s.v + 1⟩
    else
      match rest with
      | [] => iterAdvanceThread heads s.thr
      | r :: rs => ⟨s.thr, r :: rs, 0⟩

/-- iterator::operator== against end(): end() has thr = hd->size(), a null
chunk pointer and a null element cursor. -/
def iterIsEnd {α : Type} (heads : List (List (List α))) (s : InsBagIter α) : Bool :=
  (s.thr == heads.length) && s.p.isEmpty && (s.v == 0)

/-- Walk the iterator from a given state until it equals end(), collecting
the dereferenced elements; fuel bounds the number of steps (one element is
emitted per step, so bagElems + 1 steps always suffice). -/
def iterToList {α : Type} (heads : List (List (List α))) (dflt : α) :
    Nat → InsBagIter α → List α
  | 0, _ => []
  | fuel + 1, s =>
    if iterIsEnd heads s then []
    else (s.p.headD []).getD s.v dflt :: iterToList heads dflt fuel (iterAdvance heads s)

/-- Iterating the bag from begin() to end(). -/
def bagToList {α : Type} (B : List (List (List α))) (dflt : α) : List α :=
  iterToList B dflt (bagElems B + 1) (iterCtor B 0)

/-- All elements of workers t, t+1, ... in storage order: worker order,
newest segment first, elements of a segment in construction order. -/
def flattenFrom {α : Type} (B : List (List (List α))) (t : Nat) : List α :=
  ((B.drop t).map List.flatten).flatten

/-- All elements of the bag in storage order. -/
def bagFlatten {α : Type} (B : List (List (List α))) : List α :=
  flattenFrom B 0

/-- galois_insert_bag::destruct: for each worker x once (an if, not a
loop), when the head segment exists pop it (heads.get(x) = h->next), run
the destructor of the elements between its dbegin and dend, and return its
page to the allocator. Result: the new per-worker lists, the list of
destructed elements, and the number of freed pages. -/
def bagDestruct {α : Type} (B : List (List (List α))) :
    List (List (List α)) × List α × Nat :=
  (B.map List.tail,
   (B.map (fun w => w.headD [])).flatten,
   (B.filter (fun w => !w.isEmpty)).length)

/-- galois_insert_bag::clear: destruct(), then null every worker's head
pointer (any segments still linked behind the popped head become
unreachable without being destructed or freed). -/
def bagClear {α : Type} (B : List (List (List α))) :
    List (List (List α)) × List α × Nat :=
  (((bagDestruct B).1).map (fun _ => []), (bagDestruct B).2.1, (bagDestruct B).2.2)

/-- Every segment of every worker satisfies the segment bounds: at least
one element (dbegin < dend for linked segments) and at most cap elements
(dend ≤ dlast). -/
def bagBounded {α : Type} (cap : Nat) (B : List (List (List α))) : Prop :=
  ∀ w ∈ B, ∀ s ∈ w, 1 ≤ s.length ∧ s.length ≤ cap

theorem flattenFrom_of_le {α : Type} (B : List (List (List α))) (t : Nat)
    (h : B.length ≤ t) : flattenFrom B t = [] := by
  simp [flattenFrom, List.drop_eq_nil_of_le h]

theorem flattenFrom_succ {α : Type} (B : List (List (List α))) (t : Nat)
    (h : t < B.length) :
    flattenFrom B t = (B.getD t []).flatten ++ flattenFrom B (t + 1) := by
  have hg : B.getD t [] = B[t] := by
    rw [List.getD_eq_getElem?_getD, List.getElem?_eq_getElem h]
    rfl
  rw [flattenFrom, flattenFrom, List.drop_eq_getElem_cons h, hg, List.map_cons,
    List.flatten_cons]

theorem bagFlatten_cons {α : Type} (b : List (List α)) (bs : List (List (List α))) :
    bagFlatten (b :: bs) = b.flatten ++ bagFlatten bs := by
  simp [bagFlatten, flattenFrom]

theorem bagElems_eq_length_flatten {α : Type} (B : List (List (List α))) :
    bagElems B = (bagFlatten B).length := by
  simp [bagElems, bagFlatten, flattenFrom, Function.comp_def]

theorem bagFlatten_empty (α : Type) (W : Nat) : bagFlatten (bagEmpty α W) = [] := by
  induction W with
  | zero => rfl
  | succ n ih =>
    rw [bagEmpty, List.replicate_succ, bagFlatten_cons]
    rw [bagEmpty] at ih
    simp [ih]

theorem pushWorker_flatten_perm {α : Type} (cap : Nat) (segs : List (List α)) (v : α) :
    ((pushWorker cap segs v).flatten).Perm (v :: segs.flatten) := by
  cases segs with
  | nil => simp [pushWorker]
  | cons s ss =>
    rw [pushWorker]
    by_cases hf : s.length = cap
    · simp [hf]
    · rw [if_neg hf]
      simp only [List.flatten_cons, List.append_assoc, List.singleton_append]
      exact List.perm_middle

theorem bagPush_flatten_perm {α : Type} (cap : Nat) (B : List (List (List α)))
    (w : Nat) (v : α) (hw : w < B.length) :
    (bagFlatten (bagPush cap B w v)).Perm (v :: bagFlatten B) := by
  induction B generalizing w with
  | nil => simp at hw
  | cons b bs ih =>
    cases w with
    | zero =>
      rw [bagPush]
      simp only [List.set_cons_zero, List.getD_cons_zero]
      rw [bagFlatten_cons, bagFlatten_cons]
      exact (pushWorker_flatten_perm cap b v).append_right _
    | succ w =>
      have hw' : w < bs.length := by simpa using hw
      rw [bagPush]
      simp only [List.set_cons_succ, List.getD_cons_succ]
      rw [bagFlatten_cons, bagFlatten_cons]
      have hperm := ih w hw'
      rw [bagPush] at hperm
      exact ((hperm.append_left _).trans List.perm_middle)

theorem applyPushes_flatten_perm {α : Type} (cap : Nat) (ps : List (Nat × α)) :
    ∀ B : List (List (List α)), (∀ q ∈ ps, q.1 < B.length) →
      (bagFlatten (applyPushes cap ps B)).Perm (ps.map Prod.snd ++ bagFlatten B) := by
  induction ps with
  | nil => intro B _; simp [applyPushes]
  | cons q ps ih =>
    intro B hq
    rw [applyPushes, List.foldl_cons]
    have hlen : (bagPush cap B q.1 q.2).length = B.length := by
      simp [bagPush]
    have h1 := ih (bagPush cap B q.1 q.2)
      (fun r hr => by rw [hlen]; exact hq r (by simp [hr]))
    rw [applyPushes] at h1
    refine h1.trans ?_
    have h2 : (bagFlatten (bagPush cap B q.1 q.2)).Perm (q.2 :: bagFlatten B) :=
      bagPush_flatten_perm cap B q.1 q.2 (hq q (by simp))
    have h3 := (h2.append_left (ps.map Prod.snd)).trans
      (List.perm_middle :
        (ps.map Prod.snd ++ q.2 :: bagFlatten B).Perm
          (q.2 :: (ps.map Prod.snd ++ bagFlatten B)))
    simpa using h3

theorem pushWorker_bounded {α : Type} (cap : Nat) (hcap : 0 < cap)
    (segs : List (List α)) (v : α)
    (hs : ∀ s ∈ segs, 1 ≤ s.length ∧ s.length ≤ cap) :
    ∀ s ∈ pushWorker cap segs v, 1 ≤ s.length ∧ s.length ≤ cap := by
  intro s hsmem
  cases segs with
  | nil =>
    rw [pushWorker] at hsmem
    simp only [List.mem_singleton] at hsmem
    subst hsmem
    simp only [List.length_singleton]
    omega
  | cons t ts =>
    rw [pushWorker] at hsmem
    by_cases hf : t.length = cap
    · rw [if_pos hf] at hsmem
      simp only [List.mem_cons] at hsmem
      rcases hsmem with h | h | h
      · subst h
        simp only [List.length_singleton]
        omega
      · subst h
        exact hs _ (List.mem_cons_self _ _)
      · exact hs s (List.mem_cons_of_mem _ h)
    · rw [if_neg hf] at hsmem
      simp only [List.mem_cons] at hsmem
      rcases hsmem with h | h
      · have ht := hs t (List.mem_cons_self _ _)
        subst h
        simp only [List.length_append, List.length_singleton]
        omega
      · exact hs s (List.mem_cons_of_mem _ h)

theorem applyPushes_bounded {α : Type} (cap : Nat) (hcap : 0 < cap)
    (ps : List (Nat × α)) :
    ∀ B : List (List (List α)), bagBounded cap B →
      bagBounded cap (applyPushes cap ps B) := by
  induction ps with
  | nil => intro B hB; exact hB
  | cons q ps ih =>
    intro B hB
    rw [applyPushes, List.foldl_cons]
    refine ih (bagPush cap B q.1 q.2) ?_
    intro w hw s hsw
    rw [bagPush] at hw
    rcases List.mem_or_eq_of_mem_set hw with hmem | heq
    · exact hB w hmem s hsw
    · subst heq
      refine pushWorker_bounded cap hcap _ q.2 ?_ s hsw
      intro t htm
      by_cases hq : q.1 < B.length
      · have : B.getD q.1 [] ∈ B := by
          rw [List.getD_eq_getElem?_getD, List.getElem?_eq_getElem hq]
          exact List.getElem_mem hq
        exact hB _ this t htm
      · rw [List.getD_eq_getElem?_getD, List.getElem?_eq_none (by omega)] at htm
        simp at htm

theorem iterAdvanceThread_of_ge {α : Type} (heads : List (List (List α))) (thr : Nat)
    (h : heads.length ≤ thr) : iterAdvanceThread heads thr = ⟨thr, [], 0⟩ := by
  rw [iterAdvanceThread, if_neg (by omega)]

theorem iterAdvanceThread_eq_ctor {α : Type} (heads : List (List (List α))) (thr : Nat)
    (h : thr < heads.length) :
    iterAdvanceThread heads thr = iterCtor heads (thr + 1) := by
  rw [iterAdvanceThread, if_pos h, iterCtor]

theorem iterCtor_end {α : Type} (heads : List (List (List α))) :
    iterCtor heads heads.length = (⟨heads.length, [], 0⟩ : InsBagIter α) := by
  rw [iterCtor]
  simp [iterAdvanceThread_of_ge heads heads.length (Nat.le_refl _)]

theorem iterIsEnd_endState {α : Type} (heads : List (List (List α))) :
    iterIsEnd heads (⟨heads.length, [], 0⟩ : InsBagIter α) = true := by
  simp [iterIsEnd]

theorem iterIsEnd_of_lt {α : Type} (heads : List (List (List α)))
    (thr : Nat) (p : List (List α)) (v : Nat) (h : thr < heads.length) :
    iterIsEnd heads (⟨thr, p, v⟩ : InsBagIter α) = false := by
  have hne2 : (thr == heads.length) = false :=
    beq_eq_false_iff_ne.mpr (Nat.ne_of_lt h)
  simp [iterIsEnd, hne2]

/-- Walking the iterator from a worker-start state (as produced by the
constructor) enumerates every element of workers t, t+1, ...; stated with
the behaviour on mid-segment states as a hypothesis so that the two
traversal lemmas can be tied together by induction on fuel. -/
theorem iterToList_ctor_aux {α : Type} (heads : List (List (List α))) (dflt : α)
    (fuel : Nat) (hne : ∀ w ∈ heads, ∀ s ∈ w, s ≠ [])
    (hmid : ∀ thr seg rest v,
      thr < heads.length → v < seg.length → (∀ s ∈ rest, s ≠ []) →
      (seg.length - v) + (rest.map List.length).sum +
        (flattenFrom heads (thr + 1)).length < fuel →
      iterToList heads dflt fuel ⟨thr, seg :: rest, v⟩ =
        seg.drop v ++ rest.flatten ++ flattenFrom heads (thr + 1)) :
    ∀ k t, heads.length - t = k → t ≤ heads.length →
      (flattenFrom heads t).length < fuel →
      iterToList heads dflt fuel (iterCtor heads t) = flattenFrom heads t := by
  intro k
  induction k with
  | zero =>
    intro t hk ht hfuel
    have hlen : t = heads.length := by omega
    subst hlen
    rw [iterCtor_end, flattenFrom_of_le heads heads.length (Nat.le_refl _)]
    cases fuel with
    | zero => simp at hfuel
    | succ f => rw [iterToList, if_pos (by rw [iterIsEnd_endState])]
  | succ n ih =>
    intro t hk ht hfuel
    have htl : t < heads.length := by omega
    rw [iterCtor]
    simp only [htl, if_true, ite_true]
    by_cases hw : (heads.getD t []).isEmpty
    · rw [if_pos hw, iterAdvanceThread_eq_ctor heads t htl]
      have hnil : heads.getD t [] = [] := List.isEmpty_iff.mp hw
      have hflat : flattenFrom heads t = flattenFrom heads (t + 1) := by
        rw [flattenFrom_succ heads t htl, hnil]
        simp
      rw [hflat] at hfuel ⊢
      exact ih (t + 1) (by omega) (by omega) hfuel
    · rw [if_neg hw]
      obtain ⟨seg, rest, hseg⟩ : ∃ seg rest, heads.getD t [] = seg :: rest := by
        cases hgd : heads.getD t [] with
        | nil => rw [hgd] at hw; simp at hw
        | cons a l => exact ⟨a, l, rfl⟩
      have hmem : heads.getD t [] ∈ heads := by
        rw [List.getD_eq_getElem?_getD, List.getElem?_eq_getElem htl]
        exact List.getElem_mem htl
      have hwseg := hne _ hmem
      rw [hseg] at hwseg
      have h0 : 0 < seg.length := List.length_pos.mpr (hwseg seg (.head _))
      have hrest : ∀ s ∈ rest, s ≠ [] := fun s hs => hwseg s (.tail _ hs)
      have hsplit : flattenFrom heads t = (seg :: rest).flatten ++ flattenFrom heads (t + 1) := by
        rw [flattenFrom_succ heads t htl, hseg]
      have hb : seg.length - 0 + (rest.map List.length).sum +
          (flattenFrom heads (t + 1)).length < fuel := by
        rw [hsplit] at hfuel
        simp only [List.length_append, List.length_flatten, List.map_cons,
          List.sum_cons] at hfuel
        omega
      rw [hseg, hmid t seg rest 0 htl h0 hrest hb, hsplit]
      simp

/-- Walking the iterator from a valid mid-segment state (current segment
seg, cursor v inside it, remaining chunks rest, worker thr) yields the rest
of seg, then the remaining chunks, then all later workers. -/
theorem iterToList_mid {α : Type} (heads : List (List (List α))) (dflt : α)
    (hne : ∀ w ∈ heads, ∀ s ∈ w, s ≠ []) :
    ∀ fuel thr seg rest v,
      thr < heads.length → v < seg.length → (∀ s ∈ rest, s ≠ []) →
      (seg.length - v) + (rest.map List.length).sum +
        (flattenFrom heads (thr + 1)).length < fuel →
      iterToList heads dflt fuel ⟨thr, seg :: rest, v⟩ =
        seg.drop v ++ rest.flatten ++ flattenFrom heads (thr + 1) := by
  intro fuel
  induction fuel with
  | zero =>
    intro thr seg rest v h1 h2 h3 h4
    simp at h4
  | succ f ih =>
    intro thr seg rest v h1 h2 h3 h4
    rw [iterToList, if_neg (by rw [iterIsEnd_of_lt heads thr _ v h1]; simp)]
    have hderef : ((⟨thr, seg :: rest, v⟩ : InsBagIter α).p.headD []).getD v dflt =
        seg[v] := by
      show (seg.getD v dflt) = seg[v]
      rw [List.getD_eq_getElem?_getD, List.getElem?_eq_getElem h2]
      rfl
    rw [hderef]
    by_cases hv : v + 1 = seg.length
    · rw [iterAdvance]
      simp only [if_neg (show ¬ v + 1 ≠ seg.length from fun hc => hc hv)]
      cases rest with
      | nil =>
        rw [iterAdvanceThread_eq_ctor heads thr h1]
        have hctor := iterToList_ctor_aux heads dflt f hne ih
          (heads.length - (thr + 1)) (thr + 1) rfl (by omega)
          (by simp only [List.map_nil, List.sum_nil] at h4; omega)
        rw [hctor]
        have hdrop : seg.drop v = [seg[v]] := by
          rw [List.drop_eq_getElem_cons h2, hv, List.drop_length]
        rw [hdrop]
        simp
      | cons r rs =>
        have h0 : 0 < r.length := List.length_pos.mpr (h3 r (.head _))
        have hrs : ∀ s ∈ rs, s ≠ [] := fun s hs => h3 s (.tail _ hs)
        have hb : r.length - 0 + (rs.map List.length).sum +
            (flattenFrom heads (thr + 1)).length < f := by
          simp only [List.map_cons, List.sum_cons] at h4
          omega
        rw [ih thr r rs 0 h1 h0 hrs hb]
        have hdrop : seg.drop v = [seg[v]] := by
          rw [List.drop_eq_getElem_cons h2, hv, List.drop_length]
        rw [hdrop, List.drop_zero]
        simp
    · rw [iterAdvance]
      simp only [if_pos (show v + 1 ≠ seg.length from hv)]
      have hb : (seg.length - (v + 1)) + (rest.map List.length).sum +
          (flattenFrom heads (thr + 1)).length < f := by omega
      rw [ih thr seg rest (v + 1) h1 (by omega) h3 hb]
      rw [← List.cons_append, ← List.cons_append, ← List.drop_eq_getElem_cons h2]

/-- Iterating a bag whose linked segments are all nonempty (which every
reachable bag satisfies) from begin() to end() yields exactly the stored
elements: worker by worker, newest segment first. -/
theorem bagToList_eq_bagFlatten {α : Type} (B : List (List (List α))) (dflt : α)
    (hne : ∀ w ∈ B, ∀ s ∈ w, s ≠ []) :
    bagToList B dflt = bagFlatten B := by
  rw [bagToList, bagFlatten]
  exact iterToList_ctor_aux B dflt (bagElems B + 1) hne
    (iterToList_mid B dflt hne (bagElems B + 1)) (B.length - 0) 0 rfl
    (Nat.zero_le _)
    (by rw [bagElems_eq_length_flatten]; exact Nat.lt_succ_self _)

/-- C3: pushing values distributed among the workers in any way and then
iterating the bag from begin() to end() after all pushes are complete
yields exactly the multiset of pushed values, with no element duplicated
and none omitted. cap is the per-segment slot count (positive whenever an
element fits in a page, see the segment geometry below). -/
theorem c3_insert_bag_complete {α : Type} (cap W : Nat) (dflt : α)
    (ps : List (Nat × α)) (hcap : 0 < cap) (hw : ∀ q ∈ ps, q.1 < W) :
    (↑(bagToList (applyPushes cap ps (bagEmpty α W)) dflt) : Multiset α) =
      ↑(ps.map Prod.snd) := by
  have hB : bagBounded cap (applyPushes cap ps (bagEmpty α W)) := by
    refine applyPushes_bounded cap hcap ps (bagEmpty α W) ?_
    intro w hwm s hsm
    rw [bagEmpty] at hwm
    rw [List.eq_of_mem_replicate hwm] at hsm
    simp at hsm
  have hne : ∀ w ∈ applyPushes cap ps (bagEmpty α W), ∀ s ∈ w, s ≠ [] :=
    fun w hwm s hsm => List.length_pos.mp (by have := (hB w hwm s hsm).1; omega)
  rw [bagToList_eq_bagFlatten _ dflt hne]
  have hperm := applyPushes_flatten_perm cap ps (bagEmpty α W)
    (fun q hq => by rw [bagEmpty, List.length_replicate]; exact hw q hq)
  rw [bagFlatten_empty, List.append_nil] at hperm
  exact Multiset.coe_eq_coe.mpr hperm

/-- C3 witness: two workers with segment capacity 2; pushes 10, 30, 40 on
worker 0 (forcing a second segment) and 20 on worker 1; iteration returns
the pushed multiset. -/
theorem c3_insert_bag_complete_witness :
    (0 : Nat) < 2 ∧
    (∀ q ∈ [(0, 10), (1, 20), (0, 30), (0, 40)], Prod.fst q < 2) ∧
    (↑(bagToList (applyPushes 2 [(0, 10), (1, 20), (0, 30), (0, 40)]
        (bagEmpty Nat 2)) 0) : Multiset Nat) =
      ↑([(0, 10), (1, 20), (0, 30), (0, 40)].map Prod.snd) :=
  ⟨by decide, by decide,
    c3_insert_bag_complete 2 2 0 [(0, 10), (1, 20), (0, 30), (0, 40)]
      (by decide) (by decide)⟩

/-- C4: clear() does not destroy every element nor return every segment.
On the bag reached by pushing 10 then 20 into worker 0 with capacity-1
segments (two linked segments), destruct runs destructors only for the
newest segment's element 20 and frees only that one page of the two; the
element 10 and its segment are leaked when clear nulls the head. The
claim's consequence that iteration after clear is empty does hold. -/
theorem c4_clear_leaks_segments :
    applyPushes 1 [(0, 10), (0, 20)] (bagEmpty Nat 1) = [[[20], [10]]] ∧
    (bagClear [[[20], [10]]]).2.1 = [20] ∧
    (bagClear [[[20], [10]]]).2.2 = 1 ∧
    bagElems [[[20], [10]]] = 2 ∧
    (bagClear [[[20], [10]]]).1 = [[]] ∧
    bagToList (bagClear [[[20], [10]]]).1 0 = [] := by
  refine ⟨by decide, by decide, by decide, by decide, by decide, ?_⟩
  have h1 : (bagClear [[[20], [10]]]).1 = ([[]] : List (List (List Nat))) := by decide
  rw [h1]
  have hA0 : iterAdvanceThread ([[]] : List (List (List Nat))) 1 = ⟨1, [], 0⟩ :=
    iterAdvanceThread_of_ge _ 1 (by decide)
  have hA : iterAdvanceThread ([[]] : List (List (List Nat))) 0 = ⟨1, [], 0⟩ := by
    rw [iterAdvanceThread_eq_ctor _ 0 (by decide), iterCtor]
    simp [hA0]
  have hC : iterCtor ([[]] : List (List (List Nat))) 0 = ⟨1, [], 0⟩ := by
    rw [iterCtor]
    simp [hA]
  rw [bagToList, hC]
  decide

/-! ## Segment geometry (galois_insert_bag::newHeader)

newHeader carves a page from MM::pageAlloc into a header followed by
element slots: with a the page start viewed as a T array, offset = 1 plus
sizeof(header)/sizeof(T) when T is smaller than the header, dbegin = dend =
a + offset, dlast = a + pageSize/sizeof(T). pageSize (4096, one OS page)
and sizeof(header) (four 8-byte pointers) are modelled from the spec since
mm/Mem.h is not part of the snapshot; cursors are modelled as slot
indices. -/

/-- Modelled from the spec: MM::pageSize, the bulk allocator page size. -/
def pageSize : Nat := 4096

/-- sizeof(galois_insert_bag::header): next, dbegin, dend, dlast, four
8-byte pointers on LP64. -/
def headerSize : Nat := 32

/-- The first element slot index: 1, plus sizeof(header)/sizeof(T) more
slots when sizeof(T) < sizeof(header). -/
def segOffset (szT : Nat) : Nat :=
  1 + (if szT < headerSize then headerSize / szT else 0)

/-- The one-past-last slot index: pageSize / sizeof(T). -/
def segLast (szT : Nat) : Nat :=
  pageSize / szT

/-- The number of element slots a segment offers. -/
def segCap (szT : Nat) : Nat :=
  segLast szT - segOffset szT

/-- The three cursors of a segment header, as slot indices. -/
structure SegHeader where
  dbegin : Nat
  dend : Nat
  dlast : Nat
deriving DecidableEq

/-- galois_insert_bag::newHeader: dbegin = dend = the first slot after the
header, dlast = the page end. -/
def newHeader (szT : Nat) : SegHeader :=
  { dbegin := segOffset szT, dend := segOffset szT, dlast := segLast szT }

/-- The header of a linked segment holding the elements s: dend has
advanced by one slot per constructed element. -/
def headerOf {α : Type} (szT : Nat) (s : List α) : SegHeader :=
  { dbegin := segOffset szT, dend := segOffset szT + s.length, dlast := segLast szT }

/-- C9 counterexample: for an element type of 8192 bytes (larger than the
4096-byte page) the freshly allocated segment violates the claimed
invariant: dlast = 0 lies before dbegin = 1, and dbegin points outside the
page. -/
theorem c9_large_element_breaks_invariant :
    ¬ ((newHeader 8192).dbegin ≤ (newHeader 8192).dend ∧
       (newHeader 8192).dend ≤ (newHeader 8192).dlast) ∧
    (newHeader 8192).dbegin = 1 ∧
    (newHeader 8192).dlast = 0 ∧
    pageSize < (newHeader 8192).dbegin * 8192 := by
  decide

/-- C9 amended: whenever at least one element slot fits in the page after
the header (segOffset < segLast), the fresh header satisfies dbegin = dend,
its cursors stay inside the page (the first slot clears the header struct
and dlast is at most the page end), every segment of every bag reachable by
pushes holds at least one element and at most cap with dbegin ≤ dend ≤
dlast, and each push constructs exactly one element. -/
theorem c9_segment_invariant {α : Type} (szT W w : Nat) (v : α)
    (ps : List (Nat × α)) (B : List (List (List α)))
    (hT : 0 < szT) (hfit : segOffset szT < segLast szT) (hwB : w < B.length) :
    (newHeader szT).dbegin = (newHeader szT).dend ∧
    headerSize ≤ (newHeader szT).dbegin * szT ∧
    (newHeader szT).dlast * szT ≤ pageSize ∧
    (newHeader szT).dbegin ≤ (newHeader szT).dlast ∧
    (∀ wl ∈ applyPushes (segCap szT) ps (bagEmpty α W), ∀ s ∈ wl,
      1 ≤ s.length ∧
      (headerOf szT s).dbegin ≤ (headerOf szT s).dend ∧
      (headerOf szT s).dend ≤ (headerOf szT s).dlast) ∧
    bagElems (bagPush (segCap szT) B w v) = bagElems B + 1 := by
  have hcap : 0 < segCap szT := by
    rw [segCap]; omega
  have hoff : headerSize ≤ segOffset szT * szT := by
    rw [segOffset]
    by_cases hlt : szT < headerSize
    · rw [if_pos hlt]
      have := Nat.div_add_mod headerSize szT
      have hmod := Nat.mod_lt headerSize hT
      nlinarith [Nat.div_add_mod headerSize szT, Nat.mod_lt headerSize hT]
    · rw [if_neg hlt]
      omega
  have hlast : segLast szT * szT ≤ pageSize := by
    rw [segLast]
    exact Nat.div_mul_le_self pageSize szT
  refine ⟨rfl, hoff, hlast, by simp only [newHeader]; omega, ?_, ?_⟩
  · have hB : bagBounded (segCap szT) (applyPushes (segCap szT) ps (bagEmpty α W)) := by
      refine applyPushes_bounded _ hcap ps (bagEmpty α W) ?_
      intro wl hwm s hsm
      rw [bagEmpty] at hwm
      rw [List.eq_of_mem_replicate hwm] at hsm
      simp at hsm
    intro wl hwm s hsm
    have hs := hB wl hwm s hsm
    refine ⟨hs.1, by simp [headerOf], ?_⟩
    simp only [headerOf]
    have := hs.2
    rw [segCap] at this
    omega
  · have hperm := bagPush_flatten_perm (segCap szT) B w v hwB
    rw [bagElems_eq_length_flatten, bagElems_eq_length_flatten, hperm.length_eq]
    simp

/-- C9 witness: an 8-byte element type (offset 5, 512 slots per page), one
worker, one prior segment, a push of one value. -/
theorem c9_segment_invariant_witness :
    (0 : Nat) < 8 ∧
    segOffset 8 < segLast 8 ∧
    (0 : Nat) < ([[[3]]] : List (List (List Nat))).length ∧
    ((newHeader 8).dbegin = (newHeader 8).dend ∧
     headerSize ≤ (newHeader 8).dbegin * 8 ∧
     (newHeader 8).dlast * 8 ≤ pageSize ∧
     (newHeader 8).dbegin ≤ (newHeader 8).dlast ∧
     (∀ wl ∈ applyPushes (segCap 8) [(0, 5)] (bagEmpty Nat 1), ∀ s ∈ wl,
       1 ≤ s.length ∧
       (headerOf 8 s).dbegin ≤ (headerOf 8 s).dend ∧
       (headerOf 8 s).dend ≤ (headerOf 8 s).dlast) ∧
     bagElems (bagPush (segCap 8) [[[3]]] 0 7) = bagElems [[[3]]] + 1) :=
  ⟨by decide, by decide, by decide,
    c9_segment_invariant 8 1 0 (7 : Nat) [(0, 5)] [[[3]]]
      (by decide) (by decide) (by decide)⟩

/-! ## In-memory graph layouts (src/include/Galois/Graphs/LCGraph.h)

The four layouts are built from a FileGraph. GraphNode handles differ per
layout (uint32 indices for CSR, NodeInfo pointers for the other three);
pointers into the per-layout node arrays are modelled by the file node ids
they are in bijection with (the node_ids / nodes tables built during
construction), so destination sequences are comparable across layouts. -/

/-- The on-disk invariants the spec promises for valid graphs: offsets
monotonically non-decreasing, offset of the last node equal to the edge
count, all destinations in range. -/
def FileGraph.Valid (g : FileGraph) : Prop :=
  (∀ j, j < g.numNodes → ∀ i, i ≤ j → g.outIdx i ≤ g.outIdx j) ∧
  (0 < g.numNodes → g.outIdx (g.numNodes - 1) = g.numEdges) ∧
  (∀ e, e < g.numEdges → g.outsAt e < g.numNodes)

theorem valid_begin_le_end {g : FileGraph} (hv : g.Valid) (N : Nat)
    (hN : N < g.numNodes) :
    g.raw_neighbor_begin N ≤ g.raw_neighbor_end N := by
  rw [FileGraph.raw_neighbor_begin, FileGraph.raw_neighbor_end]
  by_cases h0 : N = 0
  · simp [h0]
  · rw [if_neg h0]
    exact hv.1 N hN (N - 1) (by omega)

theorem valid_end_le_numEdges {g : FileGraph} (hv : g.Valid) (N : Nat)
    (hN : N < g.numNodes) :
    g.raw_neighbor_end N ≤ g.numEdges := by
  rw [FileGraph.raw_neighbor_end]
  have h1 := hv.1 (g.numNodes - 1) (by omega) N (by omega)
  have h2 := hv.2.1 (by omega)
  omega

theorem valid_mem_destsOf {g : FileGraph} (hv : g.Valid) (N : Nat)
    (hN : N < g.numNodes) :
    ∀ d ∈ g.destsOf N, d < g.numNodes := by
  intro d hd
  rw [FileGraph.destsOf] at hd
  obtain ⟨i, hi, rfl⟩ := List.mem_map.mp hd
  rw [List.mem_range'_1] at hi
  have hbe := valid_begin_le_end hv N hN
  have hee := valid_end_le_numEdges hv N hN
  refine hv.2.2 i ?_
  rw [FileGraph.neighborsSize] at hi
  omega

theorem getD_map_range {β : Type} (f : Nat → β) (n k : Nat) (d : β) (h : k < n) :
    ((List.range n).map f).getD k d = f k := by
  rw [List.getD_eq_getElem?_getD, List.getElem?_map, List.getElem?_range h]
  rfl

theorem getD_range (n k d : Nat) (h : k < n) : (List.range n).getD k d = k := by
  rw [List.getD_eq_getElem?_getD, List.getElem?_range h]
  rfl

/-! ### LC_CSR_Graph -/

structure LC_CSR_Graph where
  numNodes : Nat
  numEdges : Nat
  EdgeIndData : List Nat
  EdgeDst : List Nat
deriving DecidableEq

/-- LC_CSR_Graph::structureFromFile: copy the node/edge counts, the whole
offset table (std::copy over edgeid iterators) and the whole destination
table (std::copy over nodeid iterators) out of the FileGraph. -/
def LC_CSR_Graph.structureFromFile (g : FileGraph) : LC_CSR_Graph :=
  { numNodes := g.size
    numEdges := g.sizeEdges
    EdgeIndData := (List.range g.size).map g.outIdx
    EdgeDst := (List.range g.sizeEdges).map g.outsAt }

/-- LC_CSR_Graph::raw_neighbor_begin: 0 for node 0, EdgeIndData[N-1]
otherwise. -/
def LC_CSR_Graph.raw_neighbor_begin (G : LC_CSR_Graph) (N : Nat) : Nat :=
  if N = 0 then 0 else G.EdgeIndData.getD (N - 1) 0

/-- LC_CSR_Graph::raw_neighbor_end: EdgeIndData[N]. -/
def LC_CSR_Graph.raw_neighbor_end (G : LC_CSR_Graph) (N : Nat) : Nat :=
  G.EdgeIndData.getD N 0

/-- LC_CSR_Graph::getEdgeDst: EdgeDst[*ni]. -/
def LC_CSR_Graph.getEdgeDst (G : LC_CSR_Graph) (e : Nat) : Nat :=
  G.EdgeDst.getD e 0

/-- Iterating edge_begin(N)..edge_end(N) and mapping getEdgeDst. -/
def LC_CSR_Graph.edgeDsts (G : LC_CSR_Graph) (N : Nat) : List Nat :=
  (List.range' (G.raw_neighbor_begin N)
    (G.raw_neighbor_end N - G.raw_neighbor_begin N)).map G.getEdgeDst

theorem csr_edgeDsts_eq {g : FileGraph} (hv : g.Valid) (N : Nat)
    (hN : N < g.size) :
    (LC_CSR_Graph.structureFromFile g).edgeDsts N = g.destsOf N := by
  have hb : (LC_CSR_Graph.structureFromFile g).raw_neighbor_begin N =
      g.raw_neighbor_begin N := by
    rw [LC_CSR_Graph.raw_neighbor_begin, FileGraph.raw_neighbor_begin]
    by_cases h0 : N = 0
    · simp [h0]
    · rw [if_neg h0, if_neg h0, LC_CSR_Graph.structureFromFile]
      exact getD_map_range g.outIdx g.size (N - 1) 0 (by
        rw [FileGraph.size] at hN ⊢; omega)
  have he : (LC_CSR_Graph.structureFromFile g).raw_neighbor_end N =
      g.raw_neighbor_end N := by
    rw [LC_CSR_Graph.raw_neighbor_end, FileGraph.raw_neighbor_end,
      LC_CSR_Graph.structureFromFile]
    exact getD_map_range g.outIdx g.size N 0 hN
  rw [LC_CSR_Graph.edgeDsts, FileGraph.destsOf, hb, he, FileGraph.neighborsSize]
  refine List.map_congr_left ?_
  intro i hi
  rw [List.mem_range'_1] at hi
  have hbe := valid_begin_le_end hv N hN
  have hee := valid_end_le_numEdges hv N hN
  rw [LC_CSR_Graph.getEdgeDst, LC_CSR_Graph.structureFromFile]
  exact getD_map_range g.outsAt g.sizeEdges i 0 (by
    rw [FileGraph.sizeEdges]; omega)

/-! ### LC_CSRInline_Graph -/

/-- The sequential layout loop of LC_CSRInline_Graph::structureFromFile:
walk the first k file nodes in order; for each one append its edge records
(destination = node_ids[*ni], the NodeInfo address of the file id *ni,
modelled by the id) to the single edge array and record the node's
edgebegin/edgeend cursor positions. -/
def inlineBuild (g : FileGraph) : Nat → List (Nat × Nat) × List Nat
  | 0 => ([], [])
  | k + 1 =>
    let r := inlineBuild g k
    let myDests := (g.destsOf k).map (fun d => (List.range g.size).getD d 0)
    (r.1 ++ [(r.2.length, r.2.length + myDests.length)], r.2 ++ myDests)

structure LC_CSRInline_Graph where
  numNodes : Nat
  numEdges : Nat
  nodeBounds : List (Nat × Nat)
  EdgeData : List Nat
deriving DecidableEq

/-- LC_CSRInline_Graph::structureFromFile. -/
def LC_CSRInline_Graph.structureFromFile (g : FileGraph) : LC_CSRInline_Graph :=
  { numNodes := g.size
    numEdges := g.sizeEdges
    nodeBounds := (inlineBuild g g.size).1
    EdgeData := (inlineBuild g g.size).2 }

/-- Iterating N's edgebegin..edgeend in the edge array and reading each
record's dst field. -/
def LC_CSRInline_Graph.edgeDsts (G : LC_CSRInline_Graph) (N : Nat) : List Nat :=
  ((G.EdgeData.drop (G.nodeBounds.getD N (0, 0)).1).take
    ((G.nodeBounds.getD N (0, 0)).2 - (G.nodeBounds.getD N (0, 0)).1))

/-- The per-node edge lists the inline layout lays out back to back. -/
def inlineDests (g : FileGraph) (n : Nat) : List Nat :=
  (g.destsOf n).map (fun d => (List.range g.size).getD d 0)

theorem inlineBuild_snd (g : FileGraph) :
    ∀ k, (inlineBuild g k).2 = ((List.range k).map (inlineDests g)).flatten := by
  intro k
  induction k with
  | zero => rfl
  | succ k ih =>
    rw [inlineBuild, List.range_succ]
    simp [ih, inlineDests]

theorem inlineBuild_fst_length (g : FileGraph) :
    ∀ k, (inlineBuild g k).1.length = k := by
  intro k
  induction k with
  | zero => rfl
  | succ k ih => simp [inlineBuild, ih]

theorem inlineBuild_fst_getD (g : FileGraph) (k n : Nat) (h : n < k) :
    (inlineBuild g k).1.getD n (0, 0) =
      ((((List.range n).map (inlineDests g)).flatten).length,
       (((List.range n).map (inlineDests g)).flatten).length +
         (inlineDests g n).length) := by
  induction k with
  | zero => omega
  | succ k ih =>
    rw [inlineBuild]
    by_cases hn : n < k
    · rw [List.getD_eq_getElem?_getD,
        List.getElem?_append_left (by rw [inlineBuild_fst_length]; omega),
        ← List.getD_eq_getElem?_getD]
      exact ih hn
    · have hnk : n = k := by omega
      subst hnk
      have hlen : (inlineBuild g n).1.length = n := inlineBuild_fst_length g n
      rw [List.getD_eq_getElem?_getD, List.getElem?_append_right (by omega)]
      simp only [hlen, Nat.sub_self, List.getElem?_cons_zero, Option.getD_some]
      rw [inlineBuild_snd g n]
      rfl

theorem flatten_decomp {β : Type} (f : Nat → List β) (n : Nat) :
    ∀ k, n < k → ∃ rest, ((List.range k).map f).flatten =
      ((List.range n).map f).flatten ++ (f n ++ rest) := by
  intro k
  induction k with
  | zero => omega
  | succ k ih =>
    intro hn
    by_cases hnk : n < k
    · obtain ⟨rest, hrest⟩ := ih hnk
      refine ⟨rest ++ f k, ?_⟩
      rw [List.range_succ]
      simp [hrest]
    · have : n = k := by omega
      subst this
      refine ⟨[], ?_⟩
      rw [List.range_succ]
      simp

theorem inline_edgeDsts_eq {g : FileGraph} (hv : g.Valid) (N : Nat)
    (hN : N < g.size) :
    (LC_CSRInline_Graph.structureFromFile g).edgeDsts N = g.destsOf N := by
  rw [LC_CSRInline_Graph.edgeDsts, LC_CSRInline_Graph.structureFromFile]
  simp only
  rw [inlineBuild_fst_getD g g.size N hN, inlineBuild_snd g g.size]
  simp only [Nat.add_sub_cancel_left]
  obtain ⟨rest, hrest⟩ := flatten_decomp (inlineDests g) N g.size hN
  rw [hrest, List.drop_left, List.take_left' rfl]
  rw [inlineDests]
  have hid : ∀ d ∈ g.destsOf N, (List.range g.size).getD d 0 = d := by
    intro d hd
    exact getD_range g.size d 0 (valid_mem_destsOf hv N hN d hd)
  rw [List.map_congr_left hid, List.map_id']

/-! ### LC_Linear_Graph -/

structure LC_Linear_Graph where
  numNodes : Nat
  numEdges : Nat
  nodes : List Nat
  recEdges : List (List Nat)
deriving DecidableEq

/-- LC_Linear_Graph::structureFromFile: the first loop lays the node
records out in file order in one arena and fills the nodes table
(nodes[*ii] = curNode, modelled as the node id); the second loop writes
each record's edge records, destination = nodes[*ni]. -/
def LC_Linear_Graph.structureFromFile (g : FileGraph) : LC_Linear_Graph :=
  { numNodes := g.size
    numEdges := g.sizeEdges
    nodes := List.range g.size
    recEdges := (List.range g.size).map
      (fun n => (g.destsOf n).map (fun d => (List.range g.size).getD d 0)) }

/-- Iterating edgeBegin()..edgeEnd() of node N's record and reading each
dst field. -/
def LC_Linear_Graph.edgeDsts (G : LC_Linear_Graph) (N : Nat) : List Nat :=
  G.recEdges.getD (G.nodes.getD N 0) []

theorem linear_edgeDsts_eq {g : FileGraph} (hv : g.Valid) (N : Nat)
    (hN : N < g.size) :
    (LC_Linear_Graph.structureFromFile g).edgeDsts N = g.destsOf N := by
  rw [LC_Linear_Graph.edgeDsts, LC_Linear_Graph.structureFromFile]
  simp only
  rw [getD_range g.size N 0 hN,
    getD_map_range _ g.size N [] hN]
  have hid : ∀ d ∈ g.destsOf N, (List.range g.size).getD d 0 = d := by
    intro d hd
    exact getD_range g.size d 0 (valid_mem_destsOf hv N hN d hd)
  rw [List.map_congr_left hid, List.map_id']

/-! ### LC_Linear2_Graph

structureFromFile distributes the node range over num workers
(distribute), then AllocateNodes has each worker lay its nodes out in a
private chunk and publish nodes[id], and AllocateEdges fills each record's
edges (dst = nodes[*ni]). PerCPU, on_each and the allocators are not in the
snapshot; they are modelled from the spec as value-initialized per-worker
slots and a serialization of the two parallel phases (each array index is
written only with a value determined by the index, so any interleaving
yields the same arrays). Node pointers are modelled by node ids via the
nodes table, and the nodes/edge arrays start out as none (uninitialized
memory) so that a node skipped by distribute would be observably missing. -/

structure DistributeInfo where
  dNumNodes : Nat
  dNumEdges : Nat
  dBegin : Nat
  dEnd : Nat
deriving DecidableEq

structure DistState where
  ii : Nat
  last : Nat
  nnodes : Nat
  nedges : Nat
  curSize : Nat
  runningNodes : Nat
  runningEdges : Nat
deriving DecidableEq

/-- One worker's slice of LC_Linear2_Graph::distribute: scan forward from
the current state; stop without recording when the node range is exhausted
(the for condition ii != ei fails first), or record
(nnodes, nedges, last, ii) and reset when curSize has reached this worker's
threshold (tid+1) * blockSize; otherwise account node ii and advance. fuel
is g.size - ii at every call, so fuel 0 coincides with exhaustion. -/
def distInner (g : FileGraph) (szN szE threshold : Nat) :
    Nat → DistState → DistState × Option DistributeInfo
  | 0, st => (st, none)
  | fuel + 1, st =>
    if st.ii = g.size then (st, none)
    else if threshold ≤ st.curSize then
      ({ st with nnodes := 0
                 nedges := 0
                 last := st.ii
                 runningNodes := st.runningNodes + st.nnodes
                 runningEdges := st.runningEdges + st.nedges },
       some ⟨st.nnodes, st.nedges, st.last, st.ii⟩)
    else
      distInner g szN szE threshold fuel
        { st with ii := st.ii + 1
                  nnodes := st.nnodes + 1
                  nedges := st.nedges + g.neighborsSize st.ii
                  curSize := st.curSize + szN + szE * g.neighborsSize st.ii }

/-- The outer loop of distribute over tids 0 .. num-2, threading the scan
state; returns each tid's recorded info (none = left value-initialized)
and the final state. -/
def distOuterAux (g : FileGraph) (szN szE blockSize : Nat) :
    Nat → Nat → DistState → List (Option DistributeInfo) × DistState
  | 0, _, st => ([], st)
  | k + 1, tid, st =>
    let r := distInner g szN szE ((tid + 1) * blockSize) (g.size - st.ii) st
    let rest := distOuterAux g szN szE blockSize k (tid + 1) r.1
    (r.2 :: rest.1, rest.2)

/-- LC_Linear2_Graph::distribute: blockSize = total footprint / num; tids
0..num-2 scan as above (unset slots stay value-initialized at zero), and
the last tid receives everything left: (numNodes - runningNodes,
numEdges - runningEdges, last, graph.end()). -/
def distribute (g : FileGraph) (szN szE num : Nat) : List DistributeInfo :=
  let total := szN * g.size + szE * g.sizeEdges
  let blockSize := total / num
  let r := distOuterAux g szN szE blockSize (num - 1) 0 ⟨0, 0, 0, 0, 0, 0, 0⟩
  (r.1.map (fun o => o.getD ⟨0, 0, 0, 0⟩)) ++
    [⟨g.size - r.2.runningNodes, g.sizeEdges - r.2.runningEdges, r.2.last, g.size⟩]

/-- The scan-state invariant: the pending window is [last, ii), nnodes
counts exactly its nodes, and runningNodes counts the nodes of all already
recorded slices, which form a partition of [0, last). -/
def DistInv (g : FileGraph) (st : DistState) : Prop :=
  st.last ≤ st.ii ∧ st.ii ≤ g.size ∧ st.nnodes = st.ii - st.last ∧
    st.runningNodes = st.last

theorem distInner_spec (g : FileGraph) (szN szE threshold : Nat) :
    ∀ fuel st, DistInv g st →
      DistInv g (distInner g szN szE threshold fuel st).1 ∧
      st.last ≤ (distInner g szN szE threshold fuel st).1.last ∧
      (∀ d, (distInner g szN szE threshold fuel st).2 = some d →
        d.dNumNodes = d.dEnd - d.dBegin ∧ d.dBegin = st.last ∧
        d.dEnd = (distInner g szN szE threshold fuel st).1.last ∧
        d.dEnd ≤ g.size) ∧
      ((distInner g szN szE threshold fuel st).2 = none →
        (distInner g szN szE threshold fuel st).1.last = st.last) := by
  intro fuel
  induction fuel with
  | zero =>
    intro st hst
    exact ⟨hst, Nat.le_refl _, fun d hd => by simp [distInner] at hd,
      fun _ => rfl⟩
  | succ fuel ih =>
    intro st hst
    rw [distInner]
    by_cases hii : st.ii = g.size
    · rw [if_pos hii]
      exact ⟨hst, Nat.le_refl _, fun d hd => by simp at hd, fun _ => rfl⟩
    · rw [if_neg hii]
      by_cases hth : threshold ≤ st.curSize
      · rw [if_pos hth]
        obtain ⟨h1, h2, h3, h4⟩ := hst
        refine ⟨⟨by simp, by simp; omega, by simp, by simp; omega⟩,
          by simp; omega, ?_, by intro h; simp at h⟩
        intro d hd
        simp only [Option.some_inj] at hd
        subst hd
        refine ⟨by simp; omega, by simp, by simp, by simp; omega⟩
      · rw [if_neg hth]
        obtain ⟨h1, h2, h3, h4⟩ := hst
        have hst' : DistInv g
            { st with ii := st.ii + 1
                      nnodes := st.nnodes + 1
                      nedges := st.nedges + g.neighborsSize st.ii
                      curSize := st.curSize + szN + szE * g.neighborsSize st.ii } := by
          refine ⟨?_, ?_, ?_, ?_⟩ <;> simp <;> omega
        obtain ⟨k1, k2, k3, k4⟩ := ih _ hst'
        exact ⟨k1, k2, k3, k4⟩

theorem distOuterAux_cover (g : FileGraph) (szN szE blockSize : Nat) :
    ∀ k tid st, DistInv g st →
      DistInv g (distOuterAux g szN szE blockSize k tid st).2 ∧
      st.last ≤ (distOuterAux g szN szE blockSize k tid st).2.last ∧
      (∀ n, st.last ≤ n →
        n < (distOuterAux g szN szE blockSize k tid st).2.last →
        ∃ d, some d ∈ (distOuterAux g szN szE blockSize k tid st).1 ∧
          d.dNumNodes = d.dEnd - d.dBegin ∧ d.dBegin ≤ n ∧ n < d.dEnd) := by
  intro k
  induction k with
  | zero =>
    intro tid st hst
    exact ⟨hst, Nat.le_refl _, fun n h1 h2 => by
      simp only [distOuterAux] at h1 h2; omega⟩
  | succ k ih =>
    intro tid st hst
    rw [distOuterAux]
    simp only
    obtain ⟨hI, hle, hsome, hnone⟩ :=
      distInner_spec g szN szE ((tid + 1) * blockSize) (g.size - st.ii) st hst
    obtain ⟨hI2, hle2, hcov2⟩ := ih (tid + 1)
      (distInner g szN szE ((tid + 1) * blockSize) (g.size - st.ii) st).1 hI
    refine ⟨hI2, Nat.le_trans hle hle2, ?_⟩
    intro n h1 h2
    by_cases hcase : n <
        (distInner g szN szE ((tid + 1) * blockSize) (g.size - st.ii) st).1.last
    · cases hr : (distInner g szN szE ((tid + 1) * blockSize) (g.size - st.ii) st).2 with
      | none =>
        have := hnone hr
        omega
      | some d =>
        obtain ⟨hd1, hd2, hd3, _⟩ := hsome d hr
        exact ⟨d, List.mem_cons_self _ _, hd1, by omega, by omega⟩
    · obtain ⟨d, hdm, hdp⟩ := hcov2 n (by omega) h2
      exact ⟨d, List.mem_cons_of_mem _ hdm, hdp⟩

theorem distribute_covers (g : FileGraph) (szN szE num : Nat) :
    ∀ n, n < g.size →
      ∃ d ∈ distribute g szN szE num,
        d.dNumNodes = d.dEnd - d.dBegin ∧ d.dBegin ≤ n ∧ n < d.dEnd := by
  intro n hn
  simp only [distribute]
  obtain ⟨hI, _, hcov⟩ := distOuterAux_cover g szN szE
    ((szN * g.size + szE * g.sizeEdges) / num) (num - 1) 0
    ⟨0, 0, 0, 0, 0, 0, 0⟩ ⟨Nat.le_refl _, by simp [FileGraph.size], rfl, rfl⟩
  obtain ⟨hL1, hL2, hL3, hL4⟩ := hI
  by_cases hc : n < (distOuterAux g szN szE
      ((szN * g.size + szE * g.sizeEdges) / num) (num - 1) 0
      ⟨0, 0, 0, 0, 0, 0, 0⟩).2.last
  · obtain ⟨d, hdm, hdp⟩ := hcov n (Nat.zero_le _) hc
    refine ⟨d, ?_, hdp⟩
    refine List.mem_append_left _ ?_
    exact List.mem_map.mpr ⟨some d, hdm, rfl⟩
  · refine ⟨⟨g.size - (distOuterAux g szN szE
        ((szN * g.size + szE * g.sizeEdges) / num) (num - 1) 0
        ⟨0, 0, 0, 0, 0, 0, 0⟩).2.runningNodes,
      g.sizeEdges - (distOuterAux g szN szE
        ((szN * g.size + szE * g.sizeEdges) / num) (num - 1) 0
        ⟨0, 0, 0, 0, 0, 0, 0⟩).2.runningEdges,
      (distOuterAux g szN szE
        ((szN * g.size + szE * g.sizeEdges) / num) (num - 1) 0
        ⟨0, 0, 0, 0, 0, 0, 0⟩).2.last, g.size⟩,
      List.mem_append_right _ (List.mem_singleton.mpr rfl), ?_, ?_, ?_⟩
    · simp only
      omega
    · simp only
      omega
    · simp only
      omega

/-- The write pattern shared by AllocateNodes and AllocateEdges: each
worker whose DistributeInfo was recorded with a nonzero node count (the
!d.numNodes early-return) writes, for every node index in its
[begin, end) range, a value determined by that index into the shared
array. The parallel on_each is serialized; this is observationally exact
because index i is only ever written with f i. -/
def chunkWrites {β : Type} (f : Nat → β) (ds : List DistributeInfo)
    (arr : List (Option β)) : List (Option β) :=
  ds.foldl (fun a d =>
    if d.dNumNodes = 0 then a
    else (List.range' d.dBegin (d.dEnd - d.dBegin)).foldl
      (fun a2 i => a2.set i (some (f i))) a) arr

theorem setFold_length {β : Type} (f : Nat → β) (l : List Nat) :
    ∀ arr : List (Option β),
      (l.foldl (fun a i => a.set i (some (f i))) arr).length = arr.length := by
  induction l with
  | nil => intro arr; rfl
  | cons i l ih =>
    intro arr
    rw [List.foldl_cons, ih, List.length_set]

theorem setFold_getD {β : Type} (f : Nat → β) (l : List Nat) :
    ∀ (arr : List (Option β)) (n : Nat),
      (l.foldl (fun a i => a.set i (some (f i))) arr).getD n none =
        if n ∈ l ∧ n < arr.length then some (f n) else arr.getD n none := by
  induction l with
  | nil =>
    intro arr n
    simp
  | cons i l ih =>
    intro arr n
    rw [List.foldl_cons, ih, List.length_set]
    by_cases hmem : n ∈ l ∧ n < arr.length
    · rw [if_pos hmem, if_pos ⟨List.mem_cons_of_mem _ hmem.1, hmem.2⟩]
    · rw [if_neg hmem]
      rw [List.getD_eq_getElem?_getD, List.getElem?_set, List.getD_eq_getElem?_getD]
      by_cases hni : i = n
      · subst hni
        by_cases hlen : i < arr.length
        · rw [if_pos rfl, if_pos hlen,
            if_pos ⟨List.mem_cons_self _ _, hlen⟩]
          rfl
        · rw [if_pos rfl, if_neg hlen, if_neg (by intro h; exact hlen h.2)]
          have : arr[i]? = none := List.getElem?_eq_none (by omega)
          rw [this]
      · rw [if_neg hni]
        by_cases hcons : n ∈ i :: l ∧ n < arr.length
        · rcases List.mem_cons.mp hcons.1 with h | h
          · exact absurd h.symm hni
          · exact absurd ⟨h, hcons.2⟩ hmem
        · rw [if_neg hcons]

theorem chunkWrites_length {β : Type} (f : Nat → β) (ds : List DistributeInfo) :
    ∀ arr, (chunkWrites f ds arr).length = arr.length := by
  induction ds with
  | nil => intro arr; rfl
  | cons d ds ih =>
    intro arr
    simp only [chunkWrites, List.foldl_cons]
    simp only [chunkWrites] at ih
    by_cases hd : d.dNumNodes = 0
    · rw [if_pos hd]
      exact ih arr
    · rw [if_neg hd]
      rw [ih, setFold_length]

theorem chunkWrites_getD {β : Type} (f : Nat → β) (ds : List DistributeInfo) :
    ∀ (arr : List (Option β)) (n : Nat),
      (chunkWrites f ds arr).getD n none =
        if (∃ d ∈ ds, d.dNumNodes ≠ 0 ∧ d.dBegin ≤ n ∧ n < d.dEnd) ∧
            n < arr.length
        then some (f n) else arr.getD n none := by
  induction ds with
  | nil =>
    intro arr n
    simp [chunkWrites]
  | cons d ds ih =>
    intro arr n
    simp only [chunkWrites, List.foldl_cons]
    simp only [chunkWrites] at ih
    by_cases hd : d.dNumNodes = 0
    · rw [if_pos hd, ih]
      by_cases hds : (∃ d' ∈ ds, d'.dNumNodes ≠ 0 ∧ d'.dBegin ≤ n ∧ n < d'.dEnd) ∧
          n < arr.length
      · rw [if_pos hds, if_pos ⟨⟨hds.1.choose,
          List.mem_cons_of_mem _ hds.1.choose_spec.1, hds.1.choose_spec.2⟩, hds.2⟩]
      · rw [if_neg hds, if_neg ?_]
        intro hcons
        refine hds ⟨?_, hcons.2⟩
        obtain ⟨d', hd'm, hd'p⟩ := hcons.1
        rcases List.mem_cons.mp hd'm with h | h
        · subst h
          exact absurd hd hd'p.1
        · exact ⟨d', h, hd'p⟩
    · rw [if_neg hd, ih, setFold_length]
      by_cases hds : (∃ d' ∈ ds, d'.dNumNodes ≠ 0 ∧ d'.dBegin ≤ n ∧ n < d'.dEnd) ∧
          n < arr.length
      · rw [if_pos hds, if_pos ⟨⟨hds.1.choose,
          List.mem_cons_of_mem _ hds.1.choose_spec.1, hds.1.choose_spec.2⟩, hds.2⟩]
      · rw [if_neg hds, setFold_getD]
        by_cases hrange : n ∈ List.range' d.dBegin (d.dEnd - d.dBegin) ∧
            n < arr.length
        · have hm := hrange.1
          rw [List.mem_range'_1] at hm
          rw [if_pos hrange,
            if_pos ⟨⟨d, List.mem_cons_self _ _, hd, by omega, by omega⟩, hrange.2⟩]
        · rw [if_neg hrange, if_neg ?_]
          intro hcons
          obtain ⟨⟨d', hd'm, hd'p⟩, hlen⟩ := hcons
          rcases List.mem_cons.mp hd'm with h | h
          · subst h
            refine hrange ⟨?_, hlen⟩
            rw [List.mem_range'_1]
            omega
          · exact hds ⟨⟨d', h, hd'p⟩, hlen⟩

/-- AllocateNodes: publish nodes[i] for every node i some chunk covers. -/
def linear2Nodes (g : FileGraph) (ds : List DistributeInfo) : List (Option Nat) :=
  chunkWrites (fun i => i) ds (List.replicate g.size none)

/-- AllocateEdges: for every covered node i write its edge records,
destination = nodes[*ni] (a null read modelled as node 0 would stand for
the uninitialized-pointer read the C++ would perform). -/
def linear2Edges (g : FileGraph) (ds : List DistributeInfo)
    (nodesArr : List (Option Nat)) : List (Option (List Nat)) :=
  chunkWrites (fun i => (g.destsOf i).map (fun d => (nodesArr.getD d none).getD 0))
    ds (List.replicate g.size none)

structure LC_Linear2_Graph where
  numNodes : Nat
  numEdges : Nat
  nodes : List (Option Nat)
  recEdges : List (Option (List Nat))
deriving DecidableEq

/-- LC_Linear2_Graph::structureFromFile: distribute, AllocateNodes on each
worker, then AllocateEdges on each worker. -/
def LC_Linear2_Graph.structureFromFile (g : FileGraph) (szN szE num : Nat) :
    LC_Linear2_Graph :=
  { numNodes := g.size
    numEdges := g.sizeEdges
    nodes := linear2Nodes g (distribute g szN szE num)
    recEdges := linear2Edges g (distribute g szN szE num)
      (linear2Nodes g (distribute g szN szE num)) }

/-- Iterating edgeBegin()..edgeEnd() of the record nodes[N] points to and
reading each dst field. -/
def LC_Linear2_Graph.edgeDsts (G : LC_Linear2_Graph) (N : Nat) : List Nat :=
  match G.nodes.getD N none with
  | some r => (G.recEdges.getD r none).getD []
  | none => []

theorem linear2Nodes_getD {g : FileGraph} (szN szE num : Nat) (k : Nat)
    (hk : k < g.size) :
    (linear2Nodes g (distribute g szN szE num)).getD k none = some k := by
  rw [linear2Nodes, chunkWrites_getD]
  obtain ⟨d, hdm, hd1, hd2, hd3⟩ := distribute_covers g szN szE num k hk
  rw [if_pos ⟨⟨d, hdm, by omega, hd2, hd3⟩, by rw [List.length_replicate]; omega⟩]

theorem linear2_edgeDsts_eq {g : FileGraph} (hv : g.Valid) (N szN szE num : Nat)
    (hN : N < g.size) :
    (LC_Linear2_Graph.structureFromFile g szN szE num).edgeDsts N = g.destsOf N := by
  have hedges : (linear2Edges g (distribute g szN szE num)
      (linear2Nodes g (distribute g szN szE num))).getD N none =
      some ((g.destsOf N).map
        (fun d => ((linear2Nodes g (distribute g szN szE num)).getD d none).getD 0)) := by
    rw [linear2Edges, chunkWrites_getD]
    obtain ⟨d, hdm, hd1, hd2, hd3⟩ := distribute_covers g szN szE num N hN
    rw [if_pos ⟨⟨d, hdm, by omega, hd2, hd3⟩, by rw [List.length_replicate]; omega⟩]
  simp only [LC_Linear2_Graph.edgeDsts, LC_Linear2_Graph.structureFromFile]
  rw [linear2Nodes_getD szN szE num N hN]
  show ((linear2Edges g (distribute g szN szE num)
      (linear2Nodes g (distribute g szN szE num))).getD N none).getD [] = g.destsOf N
  rw [hedges]
  simp only [Option.getD_some]
  have hid : ∀ d' ∈ g.destsOf N,
      ((linear2Nodes g (distribute g szN szE num)).getD d' none).getD 0 = d' := by
    intro d' hd'
    rw [linear2Nodes_getD szN szE num d' (valid_mem_destsOf hv N hN d' hd')]
    rfl
  rw [List.map_congr_left hid, List.map_id']

/-- C2: all four in-memory layouts built from the same valid FileGraph
expose, for every node, the same destination sequence via
edge_begin/edge_end and getEdgeDst (equal, through the node-handle
bijections, to the FileGraph's own stored sequence); layout choice does not
change the observable topology. szN and szE are the record sizes
distribute weighs with, and num the worker count. -/
theorem c2_layout_equivalence (g : FileGraph) (N szN szE num : Nat)
    (hv : g.Valid) (hN : N < g.size) (_hnum : 0 < num) :
    (LC_CSR_Graph.structureFromFile g).edgeDsts N = g.destsOf N ∧
    (LC_CSRInline_Graph.structureFromFile g).edgeDsts N = g.destsOf N ∧
    (LC_Linear_Graph.structureFromFile g).edgeDsts N = g.destsOf N ∧
    (LC_Linear2_Graph.structureFromFile g szN szE num).edgeDsts N = g.destsOf N ∧
    (LC_CSR_Graph.structureFromFile g).edgeDsts N =
      (LC_CSRInline_Graph.structureFromFile g).edgeDsts N ∧
    (LC_CSRInline_Graph.structureFromFile g).edgeDsts N =
      (LC_Linear_Graph.structureFromFile g).edgeDsts N ∧
    (LC_Linear_Graph.structureFromFile g).edgeDsts N =
      (LC_Linear2_Graph.structureFromFile g szN szE num).edgeDsts N := by
  have h1 := csr_edgeDsts_eq hv N hN
  have h2 := inline_edgeDsts_eq hv N hN
  have h3 := linear_edgeDsts_eq hv N hN
  have h4 := linear2_edgeDsts_eq hv N szN szE num hN
  exact ⟨h1, h2, h3, h4, by rw [h1, h2], by rw [h2, h3], by rw [h3, h4]⟩

instance (g : FileGraph) : Decidable g.Valid := by
  unfold FileGraph.Valid
  infer_instance

/-- C2 witness: the example graph (4 nodes, 4 edges), node 2, with
16-byte node records, 8-byte edge records and 2 workers. -/
theorem c2_layout_equivalence_witness :
    FileGraph.Valid exampleGraph ∧
    2 < exampleGraph.size ∧
    (0 : Nat) < 2 ∧
    ((LC_CSR_Graph.structureFromFile exampleGraph).edgeDsts 2 =
        exampleGraph.destsOf 2 ∧
      (LC_CSRInline_Graph.structureFromFile exampleGraph).edgeDsts 2 =
        exampleGraph.destsOf 2 ∧
      (LC_Linear_Graph.structureFromFile exampleGraph).edgeDsts 2 =
        exampleGraph.destsOf 2 ∧
      (LC_Linear2_Graph.structureFromFile exampleGraph 16 8 2).edgeDsts 2 =
        exampleGraph.destsOf 2 ∧
      (LC_CSR_Graph.structureFromFile exampleGraph).edgeDsts 2 =
        (LC_CSRInline_Graph.structureFromFile exampleGraph).edgeDsts 2 ∧
      (LC_CSRInline_Graph.structureFromFile exampleGraph).edgeDsts 2 =
        (LC_Linear_Graph.structureFromFile exampleGraph).edgeDsts 2 ∧
      (LC_Linear_Graph.structureFromFile exampleGraph).edgeDsts 2 =
        (LC_Linear2_Graph.structureFromFile exampleGraph 16 8 2).edgeDsts 2) :=
  ⟨by decide, by decide, by decide,
    c2_layout_equivalence exampleGraph 2 16 8 2 (by decide) (by decide) (by decide)⟩
